import Mathlib

/-!
Verification of the StudioBlood LADSPA plugin core (sb_esreveR.c, sb_kite.c,
sb_adt.c, xorgens.c) against its natural-language specification.

The C sources are shallowly embedded below.  Conventions:

* `unsigned long` quantities are modelled as `Nat`.  The C code computes
  modulo 2^64; additions and subtractions in the embedded code stay below
  2^64 under the hypotheses of the theorems, so plain `Nat` arithmetic
  agrees with the machine arithmetic there.  The two places where the code
  itself exploits unsigned wraparound are modelled with explicit wrapping:
  the backward-reading index of `run_Reverse` (`wrapDec`, sentinel
  `0xFFFFFFFFFFFFFFFF = W64 - 1`) and `ApplyReverse`'s end index.
* `LADSPA_Data` (IEEE binary32) and `double` (binary64) values are
  nonnegative in every computation the plugins perform on them, and every
  such value is a dyadic rational.  A float value is modelled exactly as a
  pair `FVal = Nat × ℤ`, the value being `m * 2^e`.  Correct rounding to
  `p` significant bits (round to nearest, ties to even, normal range) is
  implemented by `rndF` on exact fractions; `valF` maps a pair to the
  rational it denotes, used only in statements and proofs.
* Audio samples are an abstract type `α` (the code only moves them and
  zero-fills them); out-of-range reads of caller buffers yield `default`.
* Loops are embedded as fuel-indexed structural recursions returning
  `Option`; `none` means the fuel bound was exhausted, so `isSome` states
  termination of the corresponding C loop within the stated bound.
* The segment lists (`segs`) and random-call bound lists (`calls`)
  accumulated by the Kite embedding are instrumentation: they record, in
  order, the `[block_start_position, block_end_position]` segments the run
  emits and the `(lower_bound, upper_bound)` arguments of each
  `GetRandomNaturalNumber` invocation, without altering the data flow.
-/

set_option maxRecDepth 8000

/-- Numeric value 2^64, the modulus of the C code's `unsigned long` arithmetic. -/
def W64 : Nat := 2 ^ 64

/-- Decrement of an `unsigned long`: `0` wraps to `0xFFFFFFFFFFFFFFFF = W64 - 1`.
This models the `--in_index` of run_Reverse's inner loop (sb_esreveR.c:253)
and the `--end` of ApplyReverse (sb_kite.c:645). -/
def wrapDec (n : Nat) : Nat := if n = 0 then W64 - 1 else n - 1

/-! ### Exact binary floating-point rounding

The plugins compute a handful of float/double expressions
(`0.2 * sample_rate`, `offset / 1000.0f`, ...).  These are modelled with
exact correctly-rounded arithmetic on dyadic rationals. -/

/-- Fuel-indexed floor of the base-2 logarithm: `natLog2F fuel n` equals
`⌊log₂ n⌋` whenever `1 ≤ n < 2^fuel`.  Structural recursion on the fuel keeps
the definition kernel-reducible. -/
def natLog2F : Nat → Nat → Nat
  | 0, _ => 0
  | fuel + 1, n => if 2 ≤ n then natLog2F fuel (n / 2) + 1 else 0

/-- Floor of the base-2 logarithm for `n < 2^200`, ample for every quantity
the plugins round (they stay far below 2^134). -/
def natLog2 (n : Nat) : Nat := natLog2F 200 n

/-- Round the fraction `A / B` to the nearest integer, ties to even. -/
def rheFrac (A B : Nat) : Nat :=
  let q := A / B
  let r := A % B
  if 2 * r < B then q else if B < 2 * r then q + 1 else if q % 2 = 0 then q else q + 1

/-- Model of an IEEE float value: the pair `(m, e)` denotes `m * 2^e ≥ 0`.
Representations are not normalised; only the denoted value matters. -/
abbrev FVal : Type := Nat × ℤ

/-- Rational value denoted by a float model. -/
def valF (f : FVal) : ℚ := (f.1 : ℚ) * (2 : ℚ) ^ f.2

/-- Round the positive fraction `a / b` to `prec` significant bits (round to
nearest, ties to even), returning the result as a dyadic pair.  Exact for
`1 ≤ a / b` (more generally `2^(-64) ≤ a / b < 2^136`), which covers every
rounding the plugins perform. -/
def rndF (prec : Nat) (a b : Nat) : FVal :=
  let e : ℤ := (natLog2 ((a * 2 ^ 64) / b) : ℤ) - 64
  let k : ℤ := (prec : ℤ) - 1 - e
  let AB : Nat × Nat :=
    match k with
    | .ofNat t => (a * 2 ^ t, b)
    | .negSucc t => (a, b * 2 ^ (t + 1))
  (rheFrac AB.1 AB.2, e - ((prec : ℤ) - 1))

/-- Exact fraction `(numerator, denominator)` of a dyadic pair. -/
def fracOfF (f : FVal) : Nat × Nat :=
  match f.2 with
  | .ofNat t => (f.1 * 2 ^ t, 1)
  | .negSucc t => (f.1, 2 ^ (t + 1))

/-- Exact product of two dyadic values (rounding is applied separately,
mirroring one machine multiplication followed by one rounding). -/
def mulF (f g : FVal) : FVal := (f.1 * g.1, f.2 + g.2)

/-- Round a dyadic value to `prec` significant bits. -/
def rndD (prec : Nat) (f : FVal) : FVal := rndF prec (fracOfF f).1 (fracOfF f).2

/-- C cast of a nonnegative float to an integer type: truncation toward zero,
which for nonnegative values is the floor. -/
def truncF (f : FVal) : Nat :=
  match f.2 with
  | .ofNat t => f.1 * 2 ^ t
  | .negSucc t => f.1 / 2 ^ (t + 1)

/-- Comparison `f < g` of two float values (C compares the real values of the
operands; both operands are nonnegative wherever the plugins compare). -/
def fless (f g : FVal) : Bool :=
  match f.2 - g.2 with
  | .ofNat t => f.1 * 2 ^ t < g.1
  | .negSucc t => f.1 < g.1 * 2 ^ (t + 1)

/-- Nearest binary64 double to the C literal `0.2` of sb_esreveR.c:182
(the rounding of 1/5 to 53 significant bits). -/
def d0_2 : FVal := rndF 53 1 5

/-! ### xorgens.c — Brent's xor4096i generator, 64-bit configuration

`UINT` is `unsigned long` (64 bits here), so `wlen=64, r=64, s=53, a=33,
b=26, c=27, d=29, ws=27`.  The C static state (`x[r], w, weyl, i`) is the
structure `XorGenState`; the C sentinel `i < 0` ("first call") is the
`seeded` flag.  The circular array is a function `Nat → Nat`; the code only
ever indexes it through `... &&& 63`. -/

structure XorGenState where
  x : Nat → Nat
  w : Nat
  weyl : Nat
  i : Nat
  seeded : Bool

/-- Left xor-shift `v ^= v << k` in 64-bit arithmetic. -/
def xshl (k v : Nat) : Nat := (v ^^^ (v <<< k)) % W64

/-- Right xor-shift `v ^= v >> k` (no wrap needed: the value only shrinks). -/
def xshr (k v : Nat) : Nat := v ^^^ (v >>> k)

/-- Seed-scrambling recurrence of xorgens.c:72-73: `v ^= v<<10; v ^= v>>15;
v ^= v<<4; v ^= v>>13`. -/
def scrambleSeed (v : Nat) : Nat := xshr 13 (xshl 4 (xshr 15 (xshl 10 v)))

/-- Iterate the seed scramble (`for (k = wlen; k > 0; k--)`, xorgens.c:71-74). -/
def seedIter : Nat → Nat → Nat
  | 0, v => v
  | k + 1, v => seedIter k (scrambleSeed v)

/-- Initialisation loop of xorgens.c:75-79: fill `x[k]` for `k = 0..r-1` with
`x[k] = v + (w += weyl)` where `v` follows the scramble recurrence.  Returns
the filled array together with the final `w`. -/
def xorFillLoop (weyl : Nat) : Nat → Nat → Nat → Nat → (Nat → Nat) → ((Nat → Nat) × Nat)
  | 0, _, w, _, x => (x, w)
  | cnt + 1, v, w, k, x =>
    let v' := scrambleSeed v
    let w' := (w + weyl) % W64
    xorFillLoop weyl cnt v' w' (k + 1) (Function.update x k ((v' + w') % W64))

/-- Discard loop of xorgens.c:80-84 (`Discard first 4*r results`): starting at
`i = r-1`, repeat `t = x[i=(i+1)&63]; t ^= t<<33; t ^= t>>26;
v = x[(i+11)&63]; v ^= v<<27; v ^= v>>29; x[i] = t^v`. -/
def xorDiscardLoop : Nat → Nat → (Nat → Nat) → ((Nat → Nat) × Nat)
  | 0, i, x => (x, i)
  | cnt + 1, i, x =>
    let i' := (i + 1) &&& 63
    let t := xshr 26 (xshl 33 (x i'))
    let v := xshr 29 (xshl 27 (x ((i' + 11) &&& 63)))
    xorDiscardLoop cnt i' (Function.update x i' (t ^^^ v))

/-- Initialisation path of xor4096i (xorgens.c:60-85): set the weyl constant,
scramble the seed through `wlen = 64` rounds, fill the circular array, and
discard the first `4*r = 256` outputs. -/
def xorInit (seed : Nat) : XorGenState :=
  let weyl : Nat := 0x61c8864680b583eb
  let v0 : Nat := if seed ≠ 0 then seed else W64 - 1 - seed
  let v1 : Nat := seedIter 64 v0
  let fill := xorFillLoop weyl 64 v1 v1 0 (fun _ => 0)
  let disc := xorDiscardLoop 256 63 fill.1
  { x := disc.1, w := fill.2, weyl := weyl, i := disc.2, seeded := true }

/-- Generator step of xor4096i (xorgens.c:87-95): advance the cursor, combine
the word at the cursor with the word `s = 53` positions back (`(i+11) mod 64`),
write the combination back, advance the Weyl accumulator and return
`v + (w ^ (w >> 27))`. -/
def xorStep (st : XorGenState) : Nat × XorGenState :=
  let i' := (st.i + 1) &&& 63
  let t := xshr 26 (xshl 33 (st.x i'))
  let v := xshr 29 (xshl 27 (st.x ((i' + 11) &&& 63)))
  let v2 := v ^^^ t
  let w' := (st.w + st.weyl) % W64
  ((v2 + (w' ^^^ (w' >>> 27))) % W64,
   { x := Function.update st.x i' v2, w := w', weyl := st.weyl, i := i', seeded := st.seeded })

/-- Model of `UINT xor4096i(UINT seed)` (xorgens.c:22-107): initialisation is
performed iff this is the first call (`i < 0`, here `¬seeded`) or the seed is
nonzero; then one generator step produces the returned value. -/
def xor4096i (seed : Nat) (st : XorGenState) : Nat × XorGenState :=
  let st1 := if st.seeded = false ∨ seed ≠ 0 then xorInit seed else st
  xorStep st1

/-! ### GetRandomNaturalNumber (sb_esreveR.c:476-501, sb_kite.c:594-625)

Both files define the same function: seed/step the generator and return
`lower_bound + (xor4096i(...) % (upper_bound - lower_bound + 1))`.  The raw
generator output is an arbitrary 64-bit word; the embeddings below take the
raw word as a parameter (`raw`), so theorems quantify over every possible
sequence of draws.  The C subtraction is `unsigned long` arithmetic: when
`lower_bound = upper_bound + 1` the modulus is 0 and the C `%` divides by
zero (undefined behaviour); this model uses truncated `Nat` subtraction, so
it returns `lower_bound` there.  All theorems either prove
`lower_bound ≤ upper_bound` at every call or exhibit the offending call
bounds themselves, so the divergence is never relied upon. -/

def GetRandomNaturalNumber (raw lower upper : Nat) : Nat :=
  lower + raw % (upper - lower + 1)

/-! ### Shared buffer loops -/

/-- Ascending element-wise copy of `len` elements from `src` at `s` into `dst`
at `d`, the shape of the copy loops in CopySubBlock (sb_kite.c:671-675) and
run_Adt (sb_adt.c:279-319).  Writes beyond `dst` are dropped (the C would
write out of bounds; no stated theorem reaches that case), reads beyond `src`
yield `default` (likewise). -/
def copyLoop {α : Type} [Inhabited α] (dst : List α) (d : Nat) (src : List α) (s : Nat) :
    Nat → List α
  | 0 => dst
  | len + 1 => copyLoop (dst.set d (src.getD s default)) (d + 1) src (s + 1) len

/-- Model of `CopySubBlock` (sb_kite.c:661-676): copy `source[src_start ..
src_end]` (inclusive) to `destination[dest_start ..]`, except that the call
returns immediately when `dest_start == src_start` or `src_start > src_end`.
At the aliased call sites (run_Kite's compaction) the C source region starts
strictly after the destination region and the copy ascends, so every read
sees a not-yet-overwritten element; passing the pre-call list as `source`
therefore gives exactly the C result. -/
def CopySubBlock {α : Type} [Inhabited α] (destination : List α) (dest_start : Nat)
    (source : List α) (src_start src_end : Nat) : List α :=
  if dest_start = src_start ∨ src_end < src_start then destination
  else copyLoop destination dest_start source src_start (src_end + 1 - src_start)

/-- Swap loop of `ApplyReverse` (sb_kite.c:634-647): swap `buffer[start]` and
`buffer[end]` and move both indices inward while `start ≤ end`.  The C
decrement of `end` past 0 wraps (`wrapDec`); the fuel `end + 2 - start`
covers every segment with `start ≤ end` of an in-bounds buffer.  (For the
degenerate segment `start = end = 0` the C loop itself runs away over the
whole address space — undefined behaviour; no stated theorem reaches it.) -/
def applyRevGo {α : Type} [Inhabited α] : Nat → List α → Nat → Nat → List α
  | 0, buf, _, _ => buf
  | fuel + 1, buf, start, e =>
    if start ≤ e then
      let holder := buf.getD start default
      applyRevGo fuel ((buf.set start (buf.getD e default)).set e holder)
        (start + 1) (wrapDec e)
    else buf

/-- Model of `ApplyReverse` (sb_kite.c:634-647). -/
def ApplyReverse {α : Type} [Inhabited α] (buf : List α) (start e : Nat) : List α :=
  applyRevGo (e + 2 - start) buf start e

/-! ### sb_esreveR.c — the random-reversal plugin -/

/-- Plugin instance of sb_esreveR.c:77-84: the stored `LADSPA_Data`
sample rate (the audio port pointers are the run arguments). -/
structure Reverse where
  sample_rate : FVal

/-- MIN_SAMPLES of sb_esreveR.c:182: `(unsigned long)(0.2 * sample_rate)` —
the float sample rate is promoted to double exactly, multiplied by the
double `0.2`, the product rounded to binary64 and truncated. -/
def MIN_SAMPLES (sr : FVal) : Nat := truncF (rndD 53 (mulF d0_2 sr))

/-- MAX_SAMPLES of sb_esreveR.c:184: `(unsigned long)(1.5 * sample_rate)`;
`1.5` is the exact dyadic `3 * 2^(-1)`. -/
def MAX_SAMPLES (sr : FVal) : Nat := truncF (rndD 53 (mulF (3, -1) sr))

/-- Inner backward copy loop of run_Reverse (sb_esreveR.c:244-254):
`while (in_index >= start_position && in_index != 0xFFFFFFFFFFFFFFFF)`
copy `input[in_index]` to `output[out_index]`, advancing `out_index` forward
and `in_index` backward (with unsigned wraparound).  Returns the updated
output buffer and `out_index`; `none` = fuel exhausted. -/
def revCopy {α : Type} [Inhabited α] :
    Nat → List α → List α → Nat → Nat → Nat → Option (List α × Nat)
  | 0, _, _, _, _, _ => none
  | fuel + 1, input, output, outIdx, start, inIdx =>
    if start ≤ inIdx ∧ inIdx ≠ W64 - 1 then
      revCopy fuel input (output.set outIdx (input.getD inIdx default)) (outIdx + 1)
        start (wrapDec inIdx)
    else some (output, outIdx)

/-- Outer loop of run_Reverse (sb_esreveR.c:197-258).  Arguments after the
fuel: MIN_SAMPLES, MAX_SAMPLES, total_sample_count, the raw generator word
stream and its position, the input buffer, then the loop state (output
buffer, out_index, start_position).  Each inner loop gets fuel `N + 1`,
enough for any segment inside the buffer. -/
def runReverseLoop {α : Type} [Inhabited α] :
    Nat → Nat → Nat → Nat → (Nat → Nat) → Nat → List α → List α → Nat → Nat →
      Option (List α)
  | 0, _, _, _, _, _, _, _, _, _ => none
  | fuel + 1, MIN, MAX, N, rand, k, input, output, outIdx, start =>
    if outIdx < N then
      let rand_num_lower_bound := start + MIN
      if MIN ≥ N ∨ rand_num_lower_bound ≥ N - MIN then
        -- short-tail case: read back from the end of the buffer; the C
        -- leaves random_num = 0, so start_position resets to 0
        match revCopy (N + 1) input output outIdx start (N - 1) with
        | none => none
        | some (output', outIdx') =>
          runReverseLoop fuel MIN MAX N rand k input output' outIdx' 0
      else
        let ub0 := start + MAX
        let rand_num_upper_bound := if ub0 > N - MIN then N - MIN else ub0
        let random_num :=
          GetRandomNaturalNumber (rand k) rand_num_lower_bound rand_num_upper_bound
        match revCopy (N + 1) input output outIdx start (random_num - 1) with
        | none => none
        | some (output', outIdx') =>
          runReverseLoop fuel MIN MAX N rand (k + 1) input output' outIdx' random_num
    else some output

/-- Model of `run_Reverse` (sb_esreveR.c:143-259).  The guards mirror the C:
`total_sample_count <= 1`, a null instance, and `sample_rate < 10` each
return without touching the output buffer (`some output`).  The outer loop
gets fuel `N + 1`; `none` = a loop failed to finish within its bound. -/
def run_Reverse {α : Type} [Inhabited α] (inst : Option Reverse)
    (total_sample_count : Nat) (rand : Nat → Nat) (input output : List α) :
    Option (List α) :=
  if total_sample_count ≤ 1 then some output
  else
    match inst with
    | none => some output
    | some reverse =>
      if fless reverse.sample_rate (10, 0) then some output
      else
        runReverseLoop (total_sample_count + 1) (MIN_SAMPLES reverse.sample_rate)
          (MAX_SAMPLES reverse.sample_rate) total_sample_count rand 0 input output 0 0

/-! ### sb_kite.c — the cut/permute/splice plugin -/

/-- Plugin instance of sb_kite.c:81-90: the `unsigned long` sample rate. -/
structure Kite where
  sample_rate : Nat

/-- Result of a run_Kite call: the four channel buffers after the call
(run_Kite mutates its inputs in place), plus instrumentation: the emitted
segments `(block_start_position, block_end_position)` and the
`(lower_bound, upper_bound)` arguments of every GetRandomNaturalNumber
invocation, in order. -/
structure KiteRun (α : Type) where
  inL : List α
  inR : List α
  outL : List α
  outR : List α
  segs : List (Nat × Nat)
  calls : List (Nat × Nat)

/-- Main loop of run_Kite (sb_kite.c:205-342).  Arguments after the fuel:
MIN_BLOCK_START, MAX_BLOCK_END, total_samples, the raw word stream and its
position, the four buffers, out_index, samples_remaining, and the two
instrumentation accumulators. -/
def runKiteLoop {α : Type} [Inhabited α] :
    Nat → Nat → Nat → Nat → (Nat → Nat) → Nat → List α → List α → List α → List α →
      Nat → Nat → List (Nat × Nat) → List (Nat × Nat) → Option (KiteRun α)
  | 0, _, _, _, _, _, _, _, _, _, _, _, _, _ => none
  | fuel + 1, MIN, MAXE, N, rand, k, inL, inR, outL, outR, outIdx, remaining, segs, calls =>
    if outIdx < N then
      -- branch on the remaining length, recording the draws made
      let bk :
          (Nat × Nat) × Nat × List (Nat × Nat) :=
        if remaining ≤ MIN * 2 then
          ((0, remaining - 1), k, calls)
        else if remaining ≤ MAXE then
          let ub := remaining - MIN
          let s := GetRandomNaturalNumber (rand k) MIN ub
          ((s, remaining - 1), k + 1, calls ++ [(MIN, ub)])
        else
          let s := GetRandomNaturalNumber (rand k) MIN MAXE
          let lb2 := s + MIN
          let ub2 := if remaining < s + MAXE - MIN then remaining else s + MAXE - MIN - 1
          let e := GetRandomNaturalNumber (rand (k + 1)) lb2 ub2
          ((s, e), k + 2, calls ++ [(MIN, MAXE), (lb2, ub2)])
      let s := bk.1.1
      let e := bk.1.2
      let k1 := bk.2.1
      let calls1 := bk.2.2
      -- sb_kite.c:279: reverse switch, drawn from [0, 2]; reversed iff 0
      let rev := GetRandomNaturalNumber (rand k1) 0 2
      let calls2 := calls1 ++ [(0, 2)]
      let inL1 := if rev = 0 then ApplyReverse inL s e else inL
      let inR1 := if rev = 0 then ApplyReverse inR s e else inR
      -- sb_kite.c:293-298: append the sub-block to both output buffers
      let outL1 := CopySubBlock outL outIdx inL1 s e
      let outR1 := CopySubBlock outR outIdx inR1 s e
      -- sb_kite.c:314-336: compact the consumed region of the input buffers.
      -- `e + 1 - s` is the C's `block_end_position - block_start_position + 1`
      -- (in every branch e + 1 ≥ s, where the two agree); the C condition
      -- `samples_remaining - samples_copied > block_end_position` is written
      -- with the subtraction on the other side
      let samples_copied := e + 1 - s
      let source_start :=
        if e < remaining - samples_copied then remaining - samples_copied else e + 1
      let inL2 := CopySubBlock inL1 s inL1 source_start (remaining - 1)
      let inR2 := CopySubBlock inR1 s inR1 source_start (remaining - 1)
      runKiteLoop fuel MIN MAXE N rand (k1 + 1) inL2 inR2 outL1 outR1
        (outIdx + samples_copied) (remaining - samples_copied)
        (segs ++ [(s, e)]) calls2
    else some ⟨inL, inR, outL, outR, segs, calls⟩

/-- Model of `run_Kite` (sb_kite.c:160-343).  Guards as in the C:
`total_samples <= 1`, null instance, `sample_rate == 0` are no-ops.
`MIN_BLOCK_START = (unsigned long)(0.25 * sample_rate)` is exactly
`sample_rate / 4` (0.25 and the conversion are exact in binary64 for any
realistic rate), and `MAX_BLOCK_END = MIN_BLOCK_START + 2 * sample_rate`
is integer arithmetic in the C as well. -/
def run_Kite {α : Type} [Inhabited α] (inst : Option Kite) (total_samples : Nat)
    (rand : Nat → Nat) (inL inR outL outR : List α) : Option (KiteRun α) :=
  if total_samples ≤ 1 then some ⟨inL, inR, outL, outR, [], []⟩
  else
    match inst with
    | none => some ⟨inL, inR, outL, outR, [], []⟩
    | some kite =>
      if kite.sample_rate = 0 then some ⟨inL, inR, outL, outR, [], []⟩
      else
        let MIN_BLOCK_START := kite.sample_rate / 4
        let MAX_BLOCK_END := MIN_BLOCK_START + 2 * kite.sample_rate
        runKiteLoop (total_samples + 1) MIN_BLOCK_START MAX_BLOCK_END total_samples
          rand 0 inL inR outL outR 0 total_samples [] []

/-! ### sb_adt.c — the fixed-offset delay plugin -/

/-- Macro LIMIT_BETWEEN_5_AND_200 of sb_adt.c:75 (on the nonnegative integer
the control value truncates to). -/
def LIMIT_BETWEEN_5_AND_200 (x : Nat) : Nat :=
  if x < 5 then 5 else if 200 < x then 200 else x

/-- Model of `GetOffsetInSamples` (sb_adt.c:605-614): truncate the control
float to an integer, clamp to [5, 200], divide by `1000.0f` (one binary32
rounding), multiply by the float sample rate (one binary32 rounding) and
truncate.  The clamped integer converts to float exactly. -/
def GetOffsetInSamples (sample_rate offset : FVal) : Nat :=
  let c : Nat := LIMIT_BETWEEN_5_AND_200 (truncF offset)
  let offset_seconds : FVal := rndF 24 c 1000
  let offset_samples : FVal := rndD 24 (mulF sample_rate offset_seconds)
  truncF offset_samples

/-- Plugin instance of sb_adt.c:91-112: the owned carry buffer
(`block_run_off`), the offset control value and the stored sample rate. -/
structure Adt (α : Type) where
  block_run_off : List α
  offset : FVal
  sample_rate : FVal

/-- Model of `instantiate_Adt` (sb_adt.c:125-151): allocate the carry buffer
with `GetOffsetInSamples(sample_rate, MAX_OFFSET)` elements
(uninitialised, modelled as `default`). -/
def instantiate_Adt {α : Type} [Inhabited α] (sample_rate offset : FVal) : Adt α :=
  { block_run_off := List.replicate (GetOffsetInSamples sample_rate (200, 0)) default
    offset := offset
    sample_rate := sample_rate }

/-- Model of `activate_Adt` (sb_adt.c:163-180): zero-fill the carry buffer
(`memset` over `GetOffsetInSamples(sample_rate, MAX_OFFSET)` elements, the
whole buffer as allocated). -/
def activate_Adt {α : Type} [Zero α] (adt : Adt α) : Adt α :=
  { adt with
    block_run_off :=
      List.replicate (GetOffsetInSamples adt.sample_rate (200, 0)) (0 : α) }

/-- Model of `run_Adt` (sb_adt.c:230-320).  Returns the two output buffers
and the instance after the call (its carry buffer refreshed).  Guards as in
the C: `total_samples <= 1`, null instance, `sample_rate < 1000` are no-ops.
The four loops are, in order: left passthrough; carry to the head of the
right output (`SAMPLE_OFFSET` elements); right input to the rest of the
right output (`total_samples - SAMPLE_OFFSET` elements, picking up
`out_index` where the previous loop left it); the trailing right input into
the carry buffer (the loop keeps `in_index` from the previous loop, so it
copies `total_samples - (total_samples - SAMPLE_OFFSET)` elements). -/
def run_Adt {α : Type} [Inhabited α] (inst : Option (Adt α)) (total_samples : Nat)
    (inL inR outL outR : List α) : List α × List α × Option (Adt α) :=
  if total_samples ≤ 1 then (outL, outR, inst)
  else
    match inst with
    | none => (outL, outR, none)
    | some adt =>
      if fless adt.sample_rate (1000, 0) then (outL, outR, some adt)
      else
        let SAMPLE_OFFSET := GetOffsetInSamples adt.sample_rate adt.offset
        let outL1 := copyLoop outL 0 inL 0 total_samples
        let outR1 := copyLoop outR 0 adt.block_run_off 0 SAMPLE_OFFSET
        let outR2 := copyLoop outR1 SAMPLE_OFFSET inR 0 (total_samples - SAMPLE_OFFSET)
        let run_off := copyLoop adt.block_run_off 0 inR (total_samples - SAMPLE_OFFSET)
          (total_samples - (total_samples - SAMPLE_OFFSET))
        (outL1, outR2, some { adt with block_run_off := run_off })

/-! ### Value lemmas for the float model -/

theorem valF_mulF (f g : FVal) : valF (mulF f g) = valF f * valF g := by
  unfold valF mulF
  rw [zpow_add₀ (by norm_num : (2 : ℚ) ≠ 0)]
  push_cast
  ring

theorem fless_iff (f g : FVal) : fless f g = true ↔ valF f < valF g := by
  unfold fless
  split
  next t ht =>
    rw [Int.ofNat_eq_natCast] at ht
    have hf : f.2 = g.2 + (t : ℤ) := by omega
    have h2 : (0 : ℚ) < (2 : ℚ) ^ g.2 := by positivity
    unfold valF
    rw [hf, zpow_add₀ (by norm_num : (2 : ℚ) ≠ 0), zpow_natCast,
      show (f.1 : ℚ) * ((2 : ℚ) ^ g.2 * (2 : ℚ) ^ t) =
        ((f.1 : ℚ) * (2 : ℚ) ^ t) * (2 : ℚ) ^ g.2 by ring,
      mul_lt_mul_right h2, decide_eq_true_eq]
    constructor
    · intro h; exact_mod_cast h
    · intro h; exact_mod_cast h
  next t ht =>
    rw [Int.negSucc_eq] at ht
    have hf : g.2 = f.2 + ((t : ℤ) + 1) := by omega
    have h2 : (0 : ℚ) < (2 : ℚ) ^ f.2 := by positivity
    unfold valF
    rw [hf, zpow_add₀ (by norm_num : (2 : ℚ) ≠ 0),
      show ((t : ℤ) + 1) = ((t + 1 : ℕ) : ℤ) by push_cast; ring, zpow_natCast,
      show (g.1 : ℚ) * ((2 : ℚ) ^ f.2 * (2 : ℚ) ^ (t + 1)) =
        ((g.1 : ℚ) * (2 : ℚ) ^ (t + 1)) * (2 : ℚ) ^ f.2 by ring,
      mul_lt_mul_right h2, decide_eq_true_eq]
    constructor
    · intro h; exact_mod_cast h
    · intro h; exact_mod_cast h

theorem fless_eq_false_of_le {f g : FVal} (h : valF g ≤ valF f) : fless f g = false := by
  rcases Bool.eq_false_or_eq_true (fless f g) with hb | hb
  · exact absurd ((fless_iff f g).1 hb) (not_lt.2 h)
  · exact hb

/-! ### Claim theorems: the generator (C8) -/

/-- C8: once the generator state exists (`seeded = true`, the C sentinel
`i ≥ 0`), a call of xor4096i with seed 0 performs no re-initialisation: it
neither re-scrambles the circular array nor resets the weyl increment, and
it mutates the state only by the single generator step — the cursor advances
to `(i+1) & 63`, exactly that one array word is replaced by the two-transform
combination, `w` advances by the weyl increment — returning the combined
next value. -/
theorem xor4096i_zero_seed_is_pure_step (st : XorGenState) (h : st.seeded = true) :
    xor4096i 0 st = xorStep st ∧
    (xor4096i 0 st).2.weyl = st.weyl ∧
    (xor4096i 0 st).2.i = (st.i + 1) &&& 63 ∧
    (xor4096i 0 st).2.w = (st.w + st.weyl) % W64 ∧
    (xor4096i 0 st).2.seeded = true ∧
    (xor4096i 0 st).2.x =
      Function.update st.x ((st.i + 1) &&& 63)
        ((xshr 29 (xshl 27 (st.x ((((st.i + 1) &&& 63) + 11) &&& 63)))) ^^^
          (xshr 26 (xshl 33 (st.x ((st.i + 1) &&& 63))))) ∧
    (xor4096i 0 st).1 =
      (((xshr 29 (xshl 27 (st.x ((((st.i + 1) &&& 63) + 11) &&& 63)))) ^^^
          (xshr 26 (xshl 33 (st.x ((st.i + 1) &&& 63))))) +
        (((st.w + st.weyl) % W64) ^^^ (((st.w + st.weyl) % W64) >>> 27))) % W64 := by
  have hcall : xor4096i 0 st = xorStep st := by
    unfold xor4096i
    rw [if_neg]
    simp [h]
  refine ⟨hcall, ?_, ?_, ?_, ?_, ?_, ?_⟩ <;> rw [hcall] <;> simp [xorStep, h]

/-- C8 witness: the theorem applied to a concrete initialised state. -/
theorem xor4096i_zero_seed_is_pure_step_witness :
    xor4096i 0 ⟨fun j => j, 3, 5, 7, true⟩ = xorStep ⟨fun j => j, 3, 5, 7, true⟩ ∧
    (xor4096i 0 ⟨fun j => j, 3, 5, 7, true⟩).2.weyl = 5 ∧
    (xor4096i 0 ⟨fun j => j, 3, 5, 7, true⟩).2.i = (7 + 1) &&& 63 ∧
    (xor4096i 0 ⟨fun j => j, 3, 5, 7, true⟩).2.w = (3 + 5) % W64 ∧
    (xor4096i 0 ⟨fun j => j, 3, 5, 7, true⟩).2.seeded = true ∧
    (xor4096i 0 ⟨fun j => j, 3, 5, 7, true⟩).2.x =
      Function.update (fun j => j) ((7 + 1) &&& 63)
        ((xshr 29 (xshl 27 ((((7 + 1) &&& 63) + 11) &&& 63))) ^^^
          (xshr 26 (xshl 33 ((7 + 1) &&& 63)))) ∧
    (xor4096i 0 ⟨fun j => j, 3, 5, 7, true⟩).1 =
      (((xshr 29 (xshl 27 ((((7 + 1) &&& 63) + 11) &&& 63))) ^^^
          (xshr 26 (xshl 33 ((7 + 1) &&& 63)))) +
        (((3 + 5) % W64) ^^^ (((3 + 5) % W64) >>> 27))) % W64 :=
  xor4096i_zero_seed_is_pure_step ⟨fun j => j, 3, 5, 7, true⟩ rfl

/-! ### Claim theorems: guard no-ops (C7) -/

/-- C7: for each of the three plugins, an invalid call — `totalSamples ≤ 1`,
a null instance, or a sample rate below the variant's floor (10 for
esreveR, 1 for Kite, 1000 for ADT) — is a no-op: the run returns with the
output buffers exactly as supplied, the input buffers untouched, and the
owned state (the ADT carry buffer; the instance as a whole) unchanged. -/
theorem run_invalid_call_noop (α : Type) [Inhabited α] :
    (∀ (inst : Option Reverse) (N : Nat) (rand : Nat → Nat) (input output : List α),
      (N ≤ 1 ∨ inst = none ∨ ∃ r, inst = some r ∧ valF r.sample_rate < 10) →
        run_Reverse inst N rand input output = some output) ∧
    (∀ (inst : Option Kite) (N : Nat) (rand : Nat → Nat) (inL inR outL outR : List α),
      (N ≤ 1 ∨ inst = none ∨ ∃ kt, inst = some kt ∧ kt.sample_rate < 1) →
        run_Kite inst N rand inL inR outL outR = some ⟨inL, inR, outL, outR, [], []⟩) ∧
    (∀ (inst : Option (Adt α)) (N : Nat) (inL inR outL outR : List α),
      (N ≤ 1 ∨ inst = none ∨ ∃ a, inst = some a ∧ valF a.sample_rate < 1000) →
        run_Adt inst N inL inR outL outR = (outL, outR, inst)) := by
  refine ⟨?_, ?_, ?_⟩
  · rintro inst N rand input output (hN | rfl | ⟨r, rfl, hr⟩)
    · simp [run_Reverse, hN]
    · by_cases hN : N ≤ 1 <;> simp [run_Reverse, hN]
    · by_cases hN : N ≤ 1
      · simp [run_Reverse, hN]
      · have hlt : fless r.sample_rate (10, 0) = true := by
          rw [fless_iff]
          simpa [valF] using hr
        simp [run_Reverse, hN, hlt]
  · rintro inst N rand inL inR outL outR (hN | rfl | ⟨kt, rfl, hk⟩)
    · simp [run_Kite, hN]
    · by_cases hN : N ≤ 1 <;> simp [run_Kite, hN]
    · have hk0 : kt.sample_rate = 0 := by omega
      by_cases hN : N ≤ 1 <;> simp [run_Kite, hN, hk0]
  · rintro inst N inL inR outL outR (hN | rfl | ⟨a, rfl, ha⟩)
    · simp [run_Adt, hN]
    · by_cases hN : N ≤ 1 <;> simp [run_Adt, hN]
    · by_cases hN : N ≤ 1
      · simp [run_Adt, hN]
      · have hlt : fless a.sample_rate (1000, 0) = true := by
          rw [fless_iff]
          simpa [valF] using ha
        simp [run_Adt, hN, hlt]

/-! ### Claim theorems: concrete runs -/

/-- C1 (refuting evaluation): a valid run_Kite call whose segment plan
contains a segment reaching outside the buffer.  With `sample_rate = 4`
(`MIN_BLOCK_START = 1`, `MAX_BLOCK_END = 9`), `totalSamples = 10` and raw
generator words `2, 6, 1, 1, ...`, the first iteration draws
`block_start_position = 3` and — because `samples_remaining = 10 <
3 + MAX_BLOCK_END - MIN_BLOCK_START = 11` sets the end-draw upper bound to
`samples_remaining` itself — `block_end_position = 10`, so the emitted plan
is `[(3, 10), (0, 1)]`: the first segment's end index 10 lies outside the
buffer `[0, 9]` (the C reads `input[10]`). -/
theorem run_Kite_segment_outside_buffer :
    (run_Kite (α := ℤ) (some ⟨4⟩) 10
        (fun k => if k = 0 then 2 else if k = 1 then 6 else 1)
        [0, 1, 2, 3, 4, 5, 6, 7, 8, 9] [0, 1, 2, 3, 4, 5, 6, 7, 8, 9]
        [90, 91, 92, 93, 94, 95, 96, 97, 98, 99]
        [80, 81, 82, 83, 84, 85, 86, 87, 88, 89]).map KiteRun.segs =
      some [(3, 10), (0, 1)] ∧ 10 - 1 < 10 := by
  exact ⟨by decide, by decide⟩

/-- C4 (refuting evaluation): the same run as
`run_Kite_segment_outside_buffer`, projected to the recorded
GetRandomNaturalNumber bounds.  The second call — the end-position draw of
the first iteration — uses bounds `(4, 10)`: the upper bound is
`samples_remaining = 10`, not `min(remaining, start + maxWindow - minStart)
- 1 = 9` as the specification states, and the resulting drawn end (10)
exceeds `remaining - 1`. -/
theorem run_Kite_end_draw_bound_is_remaining :
    (run_Kite (α := ℤ) (some ⟨4⟩) 10
        (fun k => if k = 0 then 2 else if k = 1 then 6 else 1)
        [0, 1, 2, 3, 4, 5, 6, 7, 8, 9] [0, 1, 2, 3, 4, 5, 6, 7, 8, 9]
        [90, 91, 92, 93, 94, 95, 96, 97, 98, 99]
        [80, 81, 82, 83, 84, 85, 86, 87, 88, 89]).map KiteRun.calls =
      some [(1, 9), (4, 10), (0, 2), (0, 2)] ∧ min 10 (3 + 9 - 1) - 1 < 10 := by
  exact ⟨by decide, by decide⟩

/-- C10 (refuting evaluation): a valid run_Kite call in which
GetRandomNaturalNumber is invoked with `lower_bound > upper_bound`.  With
`sample_rate = 8` (`MIN_BLOCK_START = 2`, `MAX_BLOCK_END = 18`),
`totalSamples = 19` and a first draw of `block_start_position = 18`, the
end-position draw is invoked with bounds `(20, 19)`; in the C,
`upper_bound - lower_bound + 1` then wraps to 0 and the `%` divides by
zero. -/
theorem run_Kite_rng_bounds_inverted :
    (run_Kite (α := ℤ) (some ⟨8⟩) 19
        (fun k => if k = 0 then 16 else if k = 1 then 0 else if k = 3 then 0 else 1)
        [0, 1, 2, 3, 4, 5, 6, 7, 8, 9, 10, 11, 12, 13, 14, 15, 16, 17, 18]
        [0, 1, 2, 3, 4, 5, 6, 7, 8, 9, 10, 11, 12, 13, 14, 15, 16, 17, 18]
        [0, 0, 0, 0, 0, 0, 0, 0, 0, 0, 0, 0, 0, 0, 0, 0, 0, 0, 0]
        [0, 0, 0, 0, 0, 0, 0, 0, 0, 0, 0, 0, 0, 0, 0, 0, 0, 0, 0]).map KiteRun.calls =
      some [(2, 18), (20, 19), (0, 2), (2, 14), (0, 2), (0, 2)] ∧ 19 < 20 := by
  exact ⟨by decide, by decide⟩

/-- C3 (refuting evaluation): a valid run_Kite call that writes nothing to
either output buffer.  With `totalSamples = 2 ≤ 2 * MIN_BLOCK_START` the
whole buffer is one segment starting at 0; since `out_index = 0 =
block_start_position`, CopySubBlock's `dest_start == src_start` early return
skips the output copy, and the run returns with both output buffers exactly
as the caller supplied them (sentinels 100..103). -/
theorem run_Kite_leaves_outputs_unwritten :
    (run_Kite (α := ℤ) (some ⟨8⟩) 2 (fun _ => 1) [5, 6] [7, 8] [100, 101]
        [102, 103]).map (fun r => (r.outL, r.outR)) = some ([100, 101], [102, 103]) := by
  decide

/-- C5: the concrete delay scenario.  With sample rate 1000 and control
offset 5 ms, `GetOffsetInSamples` computes 5 (the binary32 computation
`1000.0f * (5.0f / 1000.0f)` rounds to exactly 5.0); on a freshly activated
instance, delayed-channel input `[0..9]` produces right-channel output
`[0,0,0,0,0,0,1,2,3,4]`, and the carry buffer afterwards holds `[5,6,7,8,9]`
in its active region. -/
theorem run_Adt_concrete_delay :
    GetOffsetInSamples (1000, 0) (5, 0) = 5 ∧
    (run_Adt (α := ℤ) (some (activate_Adt (instantiate_Adt (1000, 0) (5, 0)))) 10
        [0, 0, 0, 0, 0, 0, 0, 0, 0, 0] [0, 1, 2, 3, 4, 5, 6, 7, 8, 9]
        [7, 7, 7, 7, 7, 7, 7, 7, 7, 7] [7, 7, 7, 7, 7, 7, 7, 7, 7, 7]).2.1 =
      [0, 0, 0, 0, 0, 0, 1, 2, 3, 4] ∧
    ((run_Adt (α := ℤ) (some (activate_Adt (instantiate_Adt (1000, 0) (5, 0)))) 10
        [0, 0, 0, 0, 0, 0, 0, 0, 0, 0] [0, 1, 2, 3, 4, 5, 6, 7, 8, 9]
        [7, 7, 7, 7, 7, 7, 7, 7, 7, 7] [7, 7, 7, 7, 7, 7, 7, 7, 7, 7]).2.2.map
      fun a => a.block_run_off.take 5) = some [5, 6, 7, 8, 9] := by
  exact ⟨by decide, by decide, by decide⟩

/-- C6: the concrete reversal scenario.  With sample rate 10
(`MIN_SAMPLES = 2`, `MAX_SAMPLES = 15`) and `totalSamples = 4 ≤
2 * MIN_SAMPLES`, run_Reverse takes the whole-buffer branch on its first
iteration regardless of the random stream: input `[0,1,2,3]` yields output
`[3,2,1,0]` for every sequence of raw generator words. -/
theorem run_Reverse_short_buffer_full_reversal :
    ∀ rand : Nat → Nat,
      run_Reverse (α := ℤ) (some ⟨(10, 0)⟩) 4 rand [0, 1, 2, 3] [9, 9, 9, 9] =
        some [3, 2, 1, 0] := by
  intro rand
  rfl

/-! ### Bounds for the float rounding model -/

theorem natLog2F_spec (fuel : Nat) :
    ∀ n : Nat, 1 ≤ n → n < 2 ^ fuel →
      2 ^ natLog2F fuel n ≤ n ∧ n < 2 ^ (natLog2F fuel n + 1) := by
  induction fuel with
  | zero =>
    intro n h1 h2
    rw [pow_zero] at h2
    omega
  | succ f ih =>
    intro n h1 h2
    by_cases h : 2 ≤ n
    · have hd1 : 1 ≤ n / 2 := by omega
      have hd2 : n / 2 < 2 ^ f := by
        rw [pow_succ] at h2
        omega
      obtain ⟨l, r⟩ := ih (n / 2) hd1 hd2
      simp only [natLog2F, if_pos h]
      constructor
      · have e1 : 2 ^ (natLog2F f (n / 2) + 1) = 2 ^ natLog2F f (n / 2) * 2 := pow_succ 2 _
        omega
      · have e1 : 2 ^ (natLog2F f (n / 2) + 1 + 1) = 2 ^ (natLog2F f (n / 2) + 1) * 2 :=
          pow_succ 2 _
        omega
    · simp only [natLog2F, if_neg h]
      have hn : n = 1 := by omega
      subst hn
      norm_num

theorem rheFrac_bounds (A B : Nat) : A / B ≤ rheFrac A B ∧ rheFrac A B ≤ A / B + 1 := by
  simp only [rheFrac]
  split_ifs <;> omega

theorem rheFrac_of_bracket (p1 A B : Nat) (hB : 0 < B)
    (hs1 : ((2 ^ p1 : Nat) : ℚ) ≤ (A : ℚ) / (B : ℚ))
    (hs2 : (A : ℚ) / (B : ℚ) < ((2 ^ (p1 + 1) : Nat) : ℚ)) :
    2 ^ p1 ≤ rheFrac A B ∧ rheFrac A B ≤ 2 ^ (p1 + 1) := by
  have hBQ : (0 : ℚ) < (B : ℚ) := by exact_mod_cast hB
  have h1 : 2 ^ p1 * B ≤ A := by
    have := (le_div_iff₀ hBQ).1 hs1
    exact_mod_cast this
  have h2 : A < 2 ^ (p1 + 1) * B := by
    have := (div_lt_iff₀ hBQ).1 hs2
    exact_mod_cast this
  have hq1 : 2 ^ p1 ≤ A / B := (Nat.le_div_iff_mul_le hB).2 h1
  have hq2 : A / B < 2 ^ (p1 + 1) := (Nat.div_lt_iff_lt_mul hB).2 (by linarith)
  obtain ⟨r1, r2⟩ := rheFrac_bounds A B
  omega

theorem valF_pow_bracket (m p1 eN : Nat) (hm1 : 2 ^ p1 ≤ m) (hm2 : m ≤ 2 ^ (p1 + 1)) :
    (2 : ℚ) ^ (eN : ℤ) ≤ valF (m, (eN : ℤ) - (p1 : ℤ)) ∧
      valF (m, (eN : ℤ) - (p1 : ℤ)) ≤ (2 : ℚ) ^ ((eN : ℤ) + 1) := by
  have hz : (0 : ℚ) < (2 : ℚ) ^ ((eN : ℤ) - (p1 : ℤ)) := by positivity
  have key1 : (2 : ℚ) ^ (p1 : ℤ) * (2 : ℚ) ^ ((eN : ℤ) - (p1 : ℤ)) = (2 : ℚ) ^ (eN : ℤ) := by
    rw [← zpow_add₀ (by norm_num : (2 : ℚ) ≠ 0)]
    congr 1
    ring
  have key2 : (2 : ℚ) ^ ((p1 : ℤ) + 1) * (2 : ℚ) ^ ((eN : ℤ) - (p1 : ℤ)) =
      (2 : ℚ) ^ ((eN : ℤ) + 1) := by
    rw [← zpow_add₀ (by norm_num : (2 : ℚ) ≠ 0)]
    congr 1
    ring
  have hm1' : (2 : ℚ) ^ (p1 : ℤ) ≤ (m : ℚ) := by
    rw [zpow_natCast]
    exact_mod_cast hm1
  have hm2' : (m : ℚ) ≤ (2 : ℚ) ^ ((p1 : ℤ) + 1) := by
    rw [show ((p1 : ℤ) + 1) = ((p1 + 1 : ℕ) : ℤ) by push_cast; ring, zpow_natCast]
    exact_mod_cast hm2
  constructor
  · have h := mul_le_mul_of_nonneg_right hm1' (le_of_lt hz)
    rw [key1] at h
    exact h
  · have h := mul_le_mul_of_nonneg_right hm2' (le_of_lt hz)
    rw [key2] at h
    exact h

theorem rndF_bounds (p1 a b : Nat) (hb : 0 < b) (hab : b ≤ a)
    (hbd : a < 2 ^ 70 * b) :
    ∃ eN : Nat,
      ((2 : ℚ) ^ (eN : ℤ) ≤ (a : ℚ) / (b : ℚ) ∧
        (a : ℚ) / (b : ℚ) < (2 : ℚ) ^ ((eN : ℤ) + 1)) ∧
      ((2 : ℚ) ^ (eN : ℤ) ≤ valF (rndF (p1 + 1) a b) ∧
        valF (rndF (p1 + 1) a b) ≤ (2 : ℚ) ^ ((eN : ℤ) + 1)) := by
  have hF1 : 2 ^ 64 ≤ (a * 2 ^ 64) / b := by
    rw [Nat.le_div_iff_mul_le hb]
    calc 2 ^ 64 * b = b * 2 ^ 64 := by ring
    _ ≤ a * 2 ^ 64 := Nat.mul_le_mul_right _ hab
  have hF2 : (a * 2 ^ 64) / b < 2 ^ 200 := by
    have h134 : (a * 2 ^ 64) / b < 2 ^ 134 := by
      rw [Nat.div_lt_iff_lt_mul hb]
      calc a * 2 ^ 64 < (2 ^ 70 * b) * 2 ^ 64 :=
        Nat.mul_lt_mul_of_lt_of_le hbd (le_refl _) (by positivity)
      _ = 2 ^ 134 * b := by ring
    calc (a * 2 ^ 64) / b < 2 ^ 134 := h134
    _ ≤ 2 ^ 200 := Nat.pow_le_pow_right (by norm_num) (by norm_num)
  obtain ⟨hL1, hL2⟩ := natLog2F_spec 200 ((a * 2 ^ 64) / b) (by omega) hF2
  set L := natLog2F 200 ((a * 2 ^ 64) / b) with hLdef
  have hL64 : 64 ≤ L := by
    by_contra hcon
    push_neg at hcon
    have hle : (2 : Nat) ^ (L + 1) ≤ 2 ^ 64 := Nat.pow_le_pow_right (by norm_num) (by omega)
    omega
  have hbQ : (0 : ℚ) < (b : ℚ) := by exact_mod_cast hb
  have key1 : ((a * 2 ^ 64) / b : Nat) ≤ ((a : ℚ) / b) * 2 ^ 64 := by
    rw [show ((a : ℚ) / b) * 2 ^ 64 = ((a : ℚ) * 2 ^ 64) / b by ring, le_div_iff₀ hbQ]
    have h := Nat.div_mul_le_self (a * 2 ^ 64) b
    exact_mod_cast h
  have key2 : ((a : ℚ) / b) * 2 ^ 64 < ((a * 2 ^ 64) / b : Nat) + 1 := by
    rw [show ((a : ℚ) / b) * 2 ^ 64 = ((a : ℚ) * 2 ^ 64) / b by ring, div_lt_iff₀ hbQ]
    have hdm := Nat.div_add_mod (a * 2 ^ 64) b
    have hmlt : (a * 2 ^ 64) % b < b := Nat.mod_lt _ hb
    have h : a * 2 ^ 64 < ((a * 2 ^ 64) / b + 1) * b := by
      calc a * 2 ^ 64 = b * ((a * 2 ^ 64) / b) + (a * 2 ^ 64) % b := hdm.symm
      _ < b * ((a * 2 ^ 64) / b) + b := by omega
      _ = ((a * 2 ^ 64) / b + 1) * b := by ring
    exact_mod_cast h
  refine ⟨L - 64, ⟨?_, ?_⟩, ?_⟩
  · -- 2 ^ (L - 64) ≤ a / b
    have h1 : ((2 : ℚ) ^ L) ≤ ((a : ℚ) / b) * 2 ^ 64 := by
      calc ((2 : ℚ) ^ L) ≤ (((a * 2 ^ 64) / b : Nat) : ℚ) := by exact_mod_cast hL1
      _ ≤ ((a : ℚ) / b) * 2 ^ 64 := key1
    rw [show L = (L - 64) + 64 by omega, pow_add] at h1
    have h2 := le_of_mul_le_mul_right h1 (by positivity : (0 : ℚ) < 2 ^ 64)
    rw [zpow_natCast]
    exact h2
  · -- a / b < 2 ^ (L - 64 + 1)
    have h1 : ((a : ℚ) / b) * 2 ^ 64 < (2 : ℚ) ^ (L + 1) := by
      calc ((a : ℚ) / b) * 2 ^ 64 < (((a * 2 ^ 64) / b : Nat) : ℚ) + 1 := key2
      _ ≤ (2 : ℚ) ^ (L + 1) := by exact_mod_cast Nat.succ_le_of_lt hL2
    rw [show L + 1 = ((L - 64) + 1) + 64 by omega, pow_add] at h1
    have h2 := lt_of_mul_lt_mul_right h1 (by positivity : (0 : ℚ) ≤ 2 ^ 64)
    rw [show ((L - 64 : Nat) : ℤ) + 1 = (((L - 64) + 1 : Nat) : ℤ) by push_cast; ring,
      zpow_natCast]
    exact h2
  · -- bounds on the rounded value
    have hq1 : (2 : ℚ) ^ (L - 64) ≤ (a : ℚ) / b := by
      have h1 : ((2 : ℚ) ^ L) ≤ ((a : ℚ) / b) * 2 ^ 64 := by
        calc ((2 : ℚ) ^ L) ≤ (((a * 2 ^ 64) / b : Nat) : ℚ) := by exact_mod_cast hL1
        _ ≤ ((a : ℚ) / b) * 2 ^ 64 := key1
      rw [show L = (L - 64) + 64 by omega, pow_add] at h1
      exact le_of_mul_le_mul_right h1 (by positivity : (0 : ℚ) < 2 ^ 64)
    have hq2 : (a : ℚ) / b < (2 : ℚ) ^ ((L - 64) + 1) := by
      have h1 : ((a : ℚ) / b) * 2 ^ 64 < (2 : ℚ) ^ (L + 1) := by
        calc ((a : ℚ) / b) * 2 ^ 64 < (((a * 2 ^ 64) / b : Nat) : ℚ) + 1 := key2
        _ ≤ (2 : ℚ) ^ (L + 1) := by exact_mod_cast Nat.succ_le_of_lt hL2
      rw [show L + 1 = ((L - 64) + 1) + 64 by omega, pow_add] at h1
      exact lt_of_mul_lt_mul_right h1 (by positivity : (0 : ℚ) ≤ 2 ^ 64)
    -- unfold rndF and replace its internal exponent by L - 64
    have hErw : ((natLog2 ((a * 2 ^ 64) / b) : ℤ) - 64) = ((L - 64 : Nat) : ℤ) := by
      rw [natLog2, ← hLdef]
      omega
    simp only [rndF, hErw, show (((p1 + 1 : ℕ) : ℤ) - 1) = (p1 : ℤ) by push_cast; ring]
    split
    next t ht =>
      rw [Int.ofNat_eq_natCast] at ht
      have hpt : p1 = (L - 64) + t := by omega
      have hs1 : ((2 ^ p1 : Nat) : ℚ) ≤ ((a * 2 ^ t : Nat) : ℚ) / (b : ℚ) := by
        push_cast
        rw [show ((a : ℚ) * 2 ^ t) / b = ((a : ℚ) / b) * 2 ^ t by ring, hpt, pow_add]
        exact mul_le_mul_of_nonneg_right hq1 (by positivity)
      have hs2 : ((a * 2 ^ t : Nat) : ℚ) / (b : ℚ) < ((2 ^ (p1 + 1) : Nat) : ℚ) := by
        push_cast
        rw [show ((a : ℚ) * 2 ^ t) / b = ((a : ℚ) / b) * 2 ^ t by ring, hpt,
          show (L - 64) + t + 1 = ((L - 64) + 1) + t by ring, pow_add]
        exact mul_lt_mul_of_pos_right hq2 (by positivity)
      obtain ⟨hm1, hm2⟩ := rheFrac_of_bracket p1 (a * 2 ^ t) b hb hs1 hs2
      exact valF_pow_bracket _ p1 (L - 64) hm1 hm2
    next t ht =>
      rw [Int.negSucc_eq] at ht
      have hpt : L - 64 = p1 + t + 1 := by omega
      have hb2 : 0 < b * 2 ^ (t + 1) := by positivity
      have hs1 : ((2 ^ p1 : Nat) : ℚ) ≤ ((a : ℕ) : ℚ) / ((b * 2 ^ (t + 1) : Nat) : ℚ) := by
        push_cast
        rw [show ((a : ℚ)) / ((b : ℚ) * 2 ^ (t + 1)) = ((a : ℚ) / b) / 2 ^ (t + 1) by
          rw [div_div], le_div_iff₀ (by positivity : (0 : ℚ) < (2 : ℚ) ^ (t + 1)),
          ← pow_add]
        rw [show p1 + (t + 1) = (L - 64) from hpt.symm]
        exact hq1
      have hs2 : ((a : ℕ) : ℚ) / ((b * 2 ^ (t + 1) : Nat) : ℚ) < ((2 ^ (p1 + 1) : Nat) : ℚ) := by
        push_cast
        rw [show ((a : ℚ)) / ((b : ℚ) * 2 ^ (t + 1)) = ((a : ℚ) / b) / 2 ^ (t + 1) by
          rw [div_div], div_lt_iff₀ (by positivity : (0 : ℚ) < (2 : ℚ) ^ (t + 1)),
          ← pow_add]
        rw [show p1 + 1 + (t + 1) = (L - 64) + 1 by omega]
        exact hq2
      obtain ⟨hm1, hm2⟩ := rheFrac_of_bracket p1 a (b * 2 ^ (t + 1)) hb2 hs1 hs2
      exact valF_pow_bracket _ p1 (L - 64) hm1 hm2

theorem truncF_bounds (f : FVal) :
    (truncF f : ℚ) ≤ valF f ∧ valF f < (truncF f : ℚ) + 1 := by
  unfold truncF valF
  split
  next t ht =>
    rw [ht, Int.ofNat_eq_natCast, zpow_natCast]
    constructor
    · push_cast
      exact le_of_eq rfl
    · push_cast
      linarith
  next t ht =>
    rw [ht, Int.negSucc_eq, zpow_neg, show ((t : ℤ) + 1) = ((t + 1 : ℕ) : ℤ) by push_cast; ring,
      zpow_natCast]
    have hp : (0 : ℚ) < (2 : ℚ) ^ (t + 1) := by positivity
    constructor
    · rw [← div_eq_mul_inv, le_div_iff₀ hp]
      have h := Nat.div_mul_le_self f.1 (2 ^ (t + 1))
      exact_mod_cast h
    · rw [← div_eq_mul_inv, div_lt_iff₀ hp]
      have hdm := Nat.div_add_mod f.1 (2 ^ (t + 1))
      have hmlt : f.1 % 2 ^ (t + 1) < 2 ^ (t + 1) := Nat.mod_lt _ (by positivity)
      have h : f.1 < (f.1 / 2 ^ (t + 1) + 1) * 2 ^ (t + 1) := by
        calc f.1 = 2 ^ (t + 1) * (f.1 / 2 ^ (t + 1)) + f.1 % 2 ^ (t + 1) := hdm.symm
        _ < 2 ^ (t + 1) * (f.1 / 2 ^ (t + 1)) + 2 ^ (t + 1) := by omega
        _ = (f.1 / 2 ^ (t + 1) + 1) * 2 ^ (t + 1) := by ring
      exact_mod_cast h

theorem fracOfF_spec (f : FVal) :
    0 < (fracOfF f).2 ∧ (((fracOfF f).1 : ℕ) : ℚ) / (((fracOfF f).2 : ℕ) : ℚ) = valF f := by
  unfold fracOfF valF
  split
  next t ht =>
    rw [ht, Int.ofNat_eq_natCast, zpow_natCast]
    refine ⟨by norm_num, ?_⟩
    push_cast
    ring
  next t ht =>
    rw [ht, Int.negSucc_eq, zpow_neg, show ((t : ℤ) + 1) = ((t + 1 : ℕ) : ℤ) by push_cast; ring,
      zpow_natCast]
    refine ⟨by positivity, ?_⟩
    push_cast
    rw [div_eq_mul_inv]

theorem rndD_trunc_bounds (p1 : Nat) (f : FVal) (h1 : 1 ≤ valF f) (h2 : valF f < 2 ^ 70) :
    1 ≤ truncF (rndD (p1 + 1) f) ∧
    valF f / 2 < (truncF (rndD (p1 + 1) f) : ℚ) + 1 ∧
    (truncF (rndD (p1 + 1) f) : ℚ) ≤ 2 * valF f := by
  obtain ⟨hb, hq⟩ := fracOfF_spec f
  have hbQ : (0 : ℚ) < (((fracOfF f).2 : ℕ) : ℚ) := by exact_mod_cast hb
  have hab : (fracOfF f).2 ≤ (fracOfF f).1 := by
    have h : (((fracOfF f).2 : ℕ) : ℚ) ≤ (((fracOfF f).1 : ℕ) : ℚ) :=
      (one_le_div hbQ).1 (by rw [hq]; exact h1)
    exact_mod_cast h
  have hbd : (fracOfF f).1 < 2 ^ 70 * (fracOfF f).2 := by
    have h : (((fracOfF f).1 : ℕ) : ℚ) < 2 ^ 70 * (((fracOfF f).2 : ℕ) : ℚ) :=
      (div_lt_iff₀ hbQ).1 (by rw [hq]; exact h2)
    exact_mod_cast h
  obtain ⟨eN, ⟨q1, q2⟩, v1, v2⟩ := rndF_bounds p1 (fracOfF f).1 (fracOfF f).2 hb hab hbd
  rw [hq] at q1 q2
  obtain ⟨t1, t2⟩ := truncF_bounds (rndD (p1 + 1) f)
  have hrw : rndD (p1 + 1) f = rndF (p1 + 1) (fracOfF f).1 (fracOfF f).2 := rfl
  rw [hrw] at t1 t2 ⊢
  have hpow1 : (1 : ℚ) ≤ (2 : ℚ) ^ (eN : ℤ) := by
    rw [zpow_natCast]
    calc (1 : ℚ) = 1 ^ eN := (one_pow eN).symm
    _ ≤ 2 ^ eN := pow_le_pow_left₀ (by norm_num) (by norm_num) eN
  have hdbl : (2 : ℚ) ^ ((eN : ℤ) + 1) = 2 * (2 : ℚ) ^ (eN : ℤ) := by
    rw [zpow_add₀ (by norm_num : (2 : ℚ) ≠ 0)]
    ring
  refine ⟨?_, ?_, ?_⟩
  · by_contra hcon
    push_neg at hcon
    have hz : truncF (rndF (p1 + 1) (fracOfF f).1 (fracOfF f).2) = 0 := by omega
    rw [hz] at t2
    norm_num at t2
    linarith
  · linarith
  · linarith

theorem d0_2_val_bounds : (19 : ℚ) / 100 ≤ valF d0_2 ∧ valF d0_2 ≤ (21 : ℚ) / 100 := by
  have hval : d0_2 = (7205759403792794, (-55 : ℤ)) := by decide
  rw [hval]
  unfold valF
  rw [show ((7205759403792794, (-55 : ℤ)) : FVal).2 = -((55 : ℕ) : ℤ) from rfl, zpow_neg,
    zpow_natCast]
  rw [show ((7205759403792794, (-55 : ℤ)) : FVal).1 = 7205759403792794 from rfl]
  rw [← div_eq_mul_inv]
  constructor
  · rw [div_le_div_iff₀ (by norm_num) (by positivity)]
    norm_num
  · rw [div_le_div_iff₀ (by positivity) (by norm_num)]
    norm_num

theorem valF_three_halves (sr : FVal) : valF (mulF (3, -1) sr) = 3 / 2 * valF sr := by
  rw [valF_mulF]
  have h3 : valF (3, (-1 : ℤ)) = 3 / 2 := by
    unfold valF
    rw [show ((3, (-1 : ℤ)) : FVal).2 = -((1 : ℕ) : ℤ) from rfl, zpow_neg, zpow_natCast]
    norm_num
  rw [h3]

theorem MIN_MAX_props (sr : FVal) (h10 : 10 ≤ valF sr) (h64 : valF sr < 2 ^ 64) :
    1 ≤ MIN_SAMPLES sr ∧ MIN_SAMPLES sr ≤ MAX_SAMPLES sr := by
  obtain ⟨hd1, hd2⟩ := d0_2_val_bounds
  have hsr0 : (0 : ℚ) < valF sr := by linarith
  have hx : valF (mulF d0_2 sr) = valF d0_2 * valF sr := valF_mulF _ _
  have hx1 : 1 ≤ valF (mulF d0_2 sr) := by
    rw [hx]
    nlinarith
  have hx2 : valF (mulF d0_2 sr) < 2 ^ 70 := by
    rw [hx]
    nlinarith
  obtain ⟨m1, m2, m3⟩ := rndD_trunc_bounds 52 (mulF d0_2 sr) hx1 hx2
  have hy : valF (mulF (3, -1) sr) = 3 / 2 * valF sr := valF_three_halves sr
  have hy1 : 1 ≤ valF (mulF (3, -1) sr) := by
    rw [hy]
    linarith
  have hy2 : valF (mulF (3, -1) sr) < 2 ^ 70 := by
    rw [hy]
    nlinarith
  obtain ⟨n1, n2, n3⟩ := rndD_trunc_bounds 52 (mulF (3, -1) sr) hy1 hy2
  have hMINdef : MIN_SAMPLES sr = truncF (rndD (52 + 1) (mulF d0_2 sr)) := rfl
  have hMAXdef : MAX_SAMPLES sr = truncF (rndD (52 + 1) (mulF (3, -1) sr)) := rfl
  constructor
  · rw [hMINdef]
    exact m1
  · have hMIN : (MIN_SAMPLES sr : ℚ) ≤ 2 * (valF d0_2 * valF sr) := by
      rw [hMINdef, ← hx]
      exact m3
    have hMAX : valF (mulF (3, -1) sr) / 2 < (MAX_SAMPLES sr : ℚ) + 1 := by
      rw [hMAXdef]
      exact n2
    rw [hy] at hMAX
    have hlt : (MIN_SAMPLES sr : ℚ) < (MAX_SAMPLES sr : ℚ) + 1 := by nlinarith
    have hlt' : MIN_SAMPLES sr < MAX_SAMPLES sr + 1 := by exact_mod_cast hlt
    omega

/-! ### Termination of run_Reverse -/

theorem GetRandomNaturalNumber_mem (raw lower upper : Nat) (h : lower ≤ upper) :
    lower ≤ GetRandomNaturalNumber raw lower upper ∧
      GetRandomNaturalNumber raw lower upper ≤ upper := by
  unfold GetRandomNaturalNumber
  have hm : raw % (upper - lower + 1) < upper - lower + 1 := Nat.mod_lt _ (by omega)
  omega

theorem revCopy_count {α : Type} [Inhabited α] :
    ∀ d start fuel : Nat, start + d < W64 - 1 → d + 2 ≤ fuel →
      ∀ (input output : List α) (outIdx : Nat),
        ∃ out', revCopy fuel input output outIdx start (start + d) =
          some (out', outIdx + d + 1) := by
  intro d
  induction d with
  | zero =>
    intro start fuel hW hf input output outIdx
    rw [Nat.add_zero] at hW ⊢
    obtain ⟨f1, rfl⟩ : ∃ f1, fuel = f1 + 1 + 1 := ⟨fuel - 2, by omega⟩
    simp only [revCopy]
    rw [if_pos ⟨le_refl start, by omega⟩]
    by_cases h0 : start = 0
    · subst h0
      rw [show wrapDec 0 = W64 - 1 from rfl]
      rw [if_neg (by simp)]
      exact ⟨_, rfl⟩
    · rw [show wrapDec start = start - 1 by rw [wrapDec, if_neg h0]]
      rw [if_neg (by omega)]
      exact ⟨_, rfl⟩
  | succ d ih =>
    intro start fuel hW hf input output outIdx
    obtain ⟨f1, rfl⟩ : ∃ f1, fuel = f1 + 1 := ⟨fuel - 1, by omega⟩
    simp only [revCopy]
    rw [if_pos ⟨by omega, by omega⟩]
    rw [show wrapDec (start + (d + 1)) = start + d by rw [wrapDec, if_neg (by omega)]; omega]
    obtain ⟨out', ho⟩ := ih start f1 (by omega) (by omega) input
      (output.set outIdx (input.getD (start + (d + 1)) default)) (outIdx + 1)
    refine ⟨out', ?_⟩
    rw [ho, show outIdx + 1 + d + 1 = outIdx + (d + 1) + 1 by omega]

theorem runReverseLoop_isSome {α : Type} [Inhabited α] (MIN MAX N : Nat) (rand : Nat → Nat)
    (input : List α) (hMIN : 1 ≤ MIN) (hMM : MIN ≤ MAX) (hW : N < W64) :
    ∀ (fuel outIdx : Nat) (output : List α) (k : Nat), N - outIdx < fuel →
      (runReverseLoop fuel MIN MAX N rand k input output outIdx outIdx).isSome := by
  intro fuel
  induction fuel with
  | zero =>
    intro outIdx output k h
    omega
  | succ f ih =>
    intro outIdx output k h
    simp only [runReverseLoop]
    by_cases hout : outIdx < N
    · rw [if_pos hout]
      by_cases hbr : MIN ≥ N ∨ outIdx + MIN ≥ N - MIN
      · rw [if_pos hbr]
        obtain ⟨out', ho⟩ := revCopy_count (N - 1 - outIdx) outIdx (N + 1)
          (by omega) (by omega) input output outIdx
        rw [show outIdx + (N - 1 - outIdx) = N - 1 by omega,
          show N - 1 + 1 = N by omega] at ho
        simp only [ho]
        obtain ⟨f2, rfl⟩ : ∃ f2, f = f2 + 1 := ⟨f - 1, by omega⟩
        simp only [runReverseLoop]
        rw [if_neg (lt_irrefl N)]
        simp
      · rw [if_neg hbr]
        push_neg at hbr
        obtain ⟨hNM, hlow⟩ := hbr
        have hup_le : (if outIdx + MAX > N - MIN then N - MIN else outIdx + MAX) ≤ N - MIN := by
          split_ifs with hc
          · exact le_refl _
          · omega
        have hlu : outIdx + MIN ≤ (if outIdx + MAX > N - MIN then N - MIN else outIdx + MAX) := by
          split_ifs with hc
          · omega
          · omega
        obtain ⟨hr1, hr2⟩ := GetRandomNaturalNumber_mem (rand k) (outIdx + MIN)
          (if outIdx + MAX > N - MIN then N - MIN else outIdx + MAX) hlu
        set rn := GetRandomNaturalNumber (rand k) (outIdx + MIN)
          (if outIdx + MAX > N - MIN then N - MIN else outIdx + MAX) with hrn
        obtain ⟨out', ho⟩ := revCopy_count (rn - 1 - outIdx) outIdx (N + 1)
          (by omega) (by omega) input output outIdx
        rw [show outIdx + (rn - 1 - outIdx) = rn - 1 by omega,
          show rn - 1 + 1 = rn by omega] at ho
        simp only [ho]
        exact ih rn out' (k + 1) (by omega)
    · rw [if_neg hout]
      simp

/-- C9: for every valid call to run_Reverse (sample rate at least 10 — a
float converted from an `unsigned long`, hence below 2^64 — and
`2 ≤ totalSamples < 2^64`) and every sequence of raw generator words, the
whole run terminates: `isSome` says every loop, inner loops included,
finished within its fuel bound.  Moreover the inner backward copy loop, even
for a segment whose start position is 0, exits through the unsigned
wraparound sentinel (`wrapDec 0 = 0xFFFFFFFFFFFFFFFF = W64 - 1`, rejected by
the loop condition) after copying exactly the segment's `e + 1` samples:
its final out_index is `outIdx + e + 1`. -/
theorem run_Reverse_terminates_with_sentinel (α : Type) [Inhabited α] (sr : FVal)
    (N : Nat) (rand : Nat → Nat) (input output out2 : List α) (outIdx e : Nat)
    (h10 : 10 ≤ valF sr) (h64 : valF sr < 2 ^ 64) (hN : 2 ≤ N) (hW : N < W64)
    (he : e < W64 - 1) :
    (run_Reverse (some ⟨sr⟩) N rand input output).isSome ∧
      (revCopy (e + 2) input out2 outIdx 0 e).map Prod.snd = some (outIdx + e + 1) := by
  constructor
  · unfold run_Reverse
    rw [if_neg (by omega)]
    have hfl : fless ((⟨sr⟩ : Reverse)).sample_rate (10, 0) = false := by
      apply fless_eq_false_of_le
      have h10' : valF (10, 0) = 10 := by
        unfold valF
        norm_num
      rw [h10']
      exact h10
    simp only [hfl, Bool.false_eq_true, if_false]
    obtain ⟨hm1, hm2⟩ := MIN_MAX_props sr h10 h64
    exact runReverseLoop_isSome (MIN_SAMPLES sr) (MAX_SAMPLES sr) N rand input hm1 hm2 hW
      (N + 1) 0 output 0 (by omega)
  · obtain ⟨out', ho⟩ := revCopy_count e 0 (e + 2) (by omega) (by omega) input out2 outIdx
    rw [Nat.zero_add] at ho
    rw [ho]
    rfl

/-- C9 witness: the theorem applied at sample rate 10, `N = 4`, the zero
word stream, concrete buffers, and the inner loop started at index 2 with
start position 0. -/
theorem run_Reverse_terminates_with_sentinel_witness :
    (run_Reverse (α := ℤ) (some ⟨(10, 0)⟩) 4 (fun _ => 0) [0, 1, 2, 3] [9, 9, 9, 9]).isSome ∧
      (revCopy (2 + 2) ([0, 1, 2, 3] : List ℤ) [5, 5, 5] 0 0 2).map Prod.snd = some (0 + 2 + 1) :=
  run_Reverse_terminates_with_sentinel ℤ (10, 0) 4 (fun _ => 0) [0, 1, 2, 3] [9, 9, 9, 9]
    [5, 5, 5] 0 2
    (by unfold valF; norm_num) (by unfold valF; norm_num)
    (by norm_num) (by norm_num [W64]) (by norm_num [W64])

/-! ### The delay engine's copy loops -/

theorem copyLoop_length {α : Type} [Inhabited α] :
    ∀ (len : Nat) (dst : List α) (d : Nat) (src : List α) (s : Nat),
      (copyLoop dst d src s len).length = dst.length := by
  intro len
  induction len with
  | zero => intros; rfl
  | succ n ih =>
    intro dst d src s
    simp only [copyLoop]
    rw [ih, List.length_set]

theorem copyLoop_getElem? {α : Type} [Inhabited α] :
    ∀ (len : Nat) (dst : List α) (d : Nat) (src : List α) (s j : Nat),
      (copyLoop dst d src s len)[j]? =
        if d ≤ j ∧ j < d + len ∧ j < dst.length then some (src.getD (s + (j - d)) default)
        else dst[j]? := by
  intro len
  induction len with
  | zero =>
    intro dst d src s j
    simp only [copyLoop]
    rw [if_neg (by omega)]
  | succ n ih =>
    intro dst d src s j
    simp only [copyLoop]
    rw [ih, List.length_set]
    by_cases hj : d = j
    · subst hj
      rw [if_neg (by omega), List.getElem?_set, if_pos rfl]
      by_cases hl : d < dst.length
      · rw [if_pos hl, if_pos ⟨le_refl d, by omega, hl⟩, show s + (d - d) = s by omega]
      · rw [if_neg hl, if_neg (by omega)]
        exact (List.getElem?_eq_none (by omega)).symm
    · rw [List.getElem?_set, if_neg hj]
      by_cases hc : d + 1 ≤ j ∧ j < d + 1 + n ∧ j < dst.length
      · rw [if_pos hc, if_pos (by omega), show s + 1 + (j - (d + 1)) = s + (j - d) by omega]
      · rw [if_neg hc, if_neg (by omega)]

theorem adt_call {α : Type} [Inhabited α] (carry in_ out : List α) (o N : Nat)
    (ho : o ≤ N) (hin : in_.length = N) (hout : out.length = N) (hoc : o ≤ carry.length) :
    copyLoop (copyLoop out 0 carry 0 o) o in_ 0 (N - o) = carry.take o ++ in_.take (N - o) ∧
    (copyLoop carry 0 in_ (N - o) (N - (N - o))).take o = in_.drop (N - o) := by
  have hlen : (carry.take o).length = o := by
    rw [List.length_take]
    omega
  constructor
  · apply List.ext_getElem?
    intro j
    rw [copyLoop_getElem?, copyLoop_length, copyLoop_getElem?, List.getElem?_append, hlen]
    by_cases h1 : j < o
    · rw [if_neg (by omega), if_pos ⟨by omega, by omega, by omega⟩, if_pos h1, List.getElem?_take,
        if_pos h1]
      have hj : j < carry.length := by omega
      rw [List.getD_eq_getElem?_getD, Nat.zero_add, Nat.sub_zero, List.getElem?_eq_getElem hj]
      rfl
    · by_cases h2 : j < N
      · rw [if_pos ⟨by omega, by omega, by omega⟩, if_neg (by omega), List.getElem?_take,
          if_pos (by omega)]
        have hjo : j - o < in_.length := by omega
        rw [List.getD_eq_getElem?_getD, Nat.zero_add, List.getElem?_eq_getElem hjo]
        rfl
      · rw [if_neg (by omega), if_neg (by omega), if_neg (by omega), List.getElem?_take,
          if_neg (by omega)]
        exact List.getElem?_eq_none (by omega)
  · apply List.ext_getElem?
    intro j
    rw [List.getElem?_take]
    by_cases h1 : j < o
    · rw [if_pos h1, copyLoop_getElem?, show N - (N - o) = o by omega]
      rw [if_pos ⟨by omega, by omega, by omega⟩, List.getElem?_drop]
      have hjd : N - o + j < in_.length := by omega
      rw [List.getD_eq_getElem?_getD, show N - o + (j - 0) = N - o + j by omega,
        List.getElem?_eq_getElem hjd]
      rfl
    · rw [if_neg h1]
      exact (List.getElem?_eq_none (by rw [List.length_drop]; omega)).symm

theorem run_Adt_valid {α : Type} [Inhabited α] (carry : List α) (off sr : FVal) (N : Nat)
    (inL inR outL outR : List α) (hN : 2 ≤ N) (hsr : 1000 ≤ valF sr) :
    run_Adt (some ⟨carry, off, sr⟩) N inL inR outL outR =
      (copyLoop outL 0 inL 0 N,
       copyLoop (copyLoop outR 0 carry 0 (GetOffsetInSamples sr off))
         (GetOffsetInSamples sr off) inR 0 (N - GetOffsetInSamples sr off),
       some ⟨copyLoop carry 0 inR (N - GetOffsetInSamples sr off)
         (N - (N - GetOffsetInSamples sr off)), off, sr⟩) := by
  unfold run_Adt
  rw [if_neg (by omega)]
  have hfl : fless ((⟨carry, off, sr⟩ : Adt α)).sample_rate (1000, 0) = false := by
    apply fless_eq_false_of_le
    have hv : valF (1000, 0) = 1000 := by
      unfold valF
      norm_num
    rw [hv]
    exact hsr
  simp only [hfl, Bool.false_eq_true, if_false]

/-- C2: the delay engine's cross-call carry contract.  For a valid offset
(`o = offsetSamples < totalSamples`) and a freshly activated carry buffer
(`M ≥ o` zeros, as activation leaves it), two consecutive calls on
continuous right-channel inputs `in1R` then `in2R` satisfy: call 1's right
output is `o` zeros followed by `in1R[0 .. N-o-1]`; after call 1 the carry's
active region holds the last `o` samples of `in1R`; call 2's right output is
`in1R[N-o ..]` followed by `in2R[0 .. N-o-1]`; after call 2 the carry holds
the last `o` samples of `in2R`; and the concatenated outputs are the
delayed-channel stream shifted right by exactly `o` samples, the first `o`
output samples being zero. -/
theorem run_Adt_delay_two_calls (α : Type) [Inhabited α] [Zero α] (sr off : FVal)
    (N M o : Nat) (in1L in1R in2L in2R out1L out1R out2L out2R : List α)
    (hodef : o = GetOffsetInSamples sr off)
    (hsr : 1000 ≤ valF sr) (hN : 2 ≤ N) (ho : o < N) (hoM : o ≤ M)
    (h1 : in1R.length = N) (h2 : in2R.length = N)
    (hout1 : out1R.length = N) (hout2 : out2R.length = N) :
    (run_Adt (some ⟨List.replicate M (0 : α), off, sr⟩) N in1L in1R out1L out1R).2.1 =
        List.replicate o (0 : α) ++ in1R.take (N - o) ∧
    ((run_Adt (some ⟨List.replicate M (0 : α), off, sr⟩) N in1L in1R out1L out1R).2.2.map
        fun a => a.block_run_off.take o) = some (in1R.drop (N - o)) ∧
    (run_Adt
        ((run_Adt (some ⟨List.replicate M (0 : α), off, sr⟩) N in1L in1R out1L out1R).2.2)
        N in2L in2R out2L out2R).2.1 = in1R.drop (N - o) ++ in2R.take (N - o) ∧
    ((run_Adt
        ((run_Adt (some ⟨List.replicate M (0 : α), off, sr⟩) N in1L in1R out1L out1R).2.2)
        N in2L in2R out2L out2R).2.2.map
        fun a => a.block_run_off.take o) = some (in2R.drop (N - o)) ∧
    (run_Adt (some ⟨List.replicate M (0 : α), off, sr⟩) N in1L in1R out1L out1R).2.1 ++
      (run_Adt
        ((run_Adt (some ⟨List.replicate M (0 : α), off, sr⟩) N in1L in1R out1L out1R).2.2)
        N in2L in2R out2L out2R).2.1 =
      List.replicate o (0 : α) ++ in1R ++ in2R.take (N - o) := by
  have hG : GetOffsetInSamples sr off = o := hodef.symm
  have hA1 := run_Adt_valid (List.replicate M (0 : α)) off sr N in1L in1R out1L out1R hN hsr
  rw [hG] at hA1
  have hrep : o ≤ (List.replicate M (0 : α)).length := by
    rw [List.length_replicate]
    exact hoM
  have hAC := adt_call (List.replicate M (0 : α)) in1R out1R o N (by omega) h1 hout1 hrep
  have g1 : (run_Adt (some ⟨List.replicate M (0 : α), off, sr⟩) N in1L in1R out1L out1R).2.1 =
      List.replicate o (0 : α) ++ in1R.take (N - o) := by
    rw [hA1]
    show copyLoop (copyLoop out1R 0 (List.replicate M (0 : α)) 0 o) o in1R 0 (N - o) = _
    rw [hAC.1, List.take_replicate, show o ⊓ M = o by omega]
  have g2 : ((run_Adt (some ⟨List.replicate M (0 : α), off, sr⟩) N in1L in1R out1L
      out1R).2.2.map fun a => a.block_run_off.take o) = some (in1R.drop (N - o)) := by
    rw [hA1]
    show some ((copyLoop (List.replicate M (0 : α)) 0 in1R (N - o) (N - (N - o))).take o) = _
    rw [hAC.2]
  have hc1len : o ≤ (copyLoop (List.replicate M (0 : α)) 0 in1R (N - o) (N - (N - o))).length := by
    rw [copyLoop_length, List.length_replicate]
    exact hoM
  have hAC2 := adt_call (copyLoop (List.replicate M (0 : α)) 0 in1R (N - o) (N - (N - o)))
    in2R out2R o N (by omega) h2 hout2 hc1len
  have g3 : (run_Adt
      ((run_Adt (some ⟨List.replicate M (0 : α), off, sr⟩) N in1L in1R out1L out1R).2.2)
      N in2L in2R out2L out2R).2.1 = in1R.drop (N - o) ++ in2R.take (N - o) := by
    rw [hA1]
    show (run_Adt
        (some ⟨copyLoop (List.replicate M (0 : α)) 0 in1R (N - o) (N - (N - o)), off, sr⟩)
        N in2L in2R out2L out2R).2.1 = _
    rw [run_Adt_valid _ off sr N in2L in2R out2L out2R hN hsr, hG]
    show copyLoop (copyLoop out2R 0
        (copyLoop (List.replicate M (0 : α)) 0 in1R (N - o) (N - (N - o))) 0 o) o
        in2R 0 (N - o) = _
    rw [hAC2.1, hAC.2]
  have g4 : ((run_Adt
      ((run_Adt (some ⟨List.replicate M (0 : α), off, sr⟩) N in1L in1R out1L out1R).2.2)
      N in2L in2R out2L out2R).2.2.map fun a => a.block_run_off.take o) =
      some (in2R.drop (N - o)) := by
    rw [hA1]
    show ((run_Adt
        (some ⟨copyLoop (List.replicate M (0 : α)) 0 in1R (N - o) (N - (N - o)), off, sr⟩)
        N in2L in2R out2L out2R).2.2.map fun a => a.block_run_off.take o) = _
    rw [run_Adt_valid _ off sr N in2L in2R out2L out2R hN hsr, hG]
    show some ((copyLoop (copyLoop (List.replicate M (0 : α)) 0 in1R (N - o) (N - (N - o)))
        0 in2R (N - o) (N - (N - o))).take o) = _
    rw [hAC2.2]
  refine ⟨g1, g2, g3, g4, ?_⟩
  rw [g1, g3, List.append_assoc, ← List.append_assoc (in1R.take (N - o)),
    List.take_append_drop]
  simp [List.append_assoc]

/-- C2 witness: the theorem at sample rate 1000, offset control 5 ms
(`offsetSamples = 5`), block length 7, carry capacity 200, and concrete
integer streams. -/
theorem run_Adt_delay_two_calls_witness :
    (run_Adt (some ⟨List.replicate 200 (0 : ℤ), (5, 0), (1000, 0)⟩) 7 [0, 0, 0, 0, 0, 0, 0]
        [10, 11, 12, 13, 14, 15, 16] [9, 9, 9, 9, 9, 9, 9] [9, 9, 9, 9, 9, 9, 9]).2.1 =
        List.replicate 5 (0 : ℤ) ++ [10, 11, 12, 13, 14, 15, 16].take (7 - 5) ∧
    ((run_Adt (some ⟨List.replicate 200 (0 : ℤ), (5, 0), (1000, 0)⟩) 7 [0, 0, 0, 0, 0, 0, 0]
        [10, 11, 12, 13, 14, 15, 16] [9, 9, 9, 9, 9, 9, 9] [9, 9, 9, 9, 9, 9, 9]).2.2.map
        fun a => a.block_run_off.take 5) = some ([10, 11, 12, 13, 14, 15, 16].drop (7 - 5)) ∧
    (run_Adt
        ((run_Adt (some ⟨List.replicate 200 (0 : ℤ), (5, 0), (1000, 0)⟩) 7 [0, 0, 0, 0, 0, 0, 0]
          [10, 11, 12, 13, 14, 15, 16] [9, 9, 9, 9, 9, 9, 9] [9, 9, 9, 9, 9, 9, 9]).2.2)
        7 [0, 0, 0, 0, 0, 0, 0] [20, 21, 22, 23, 24, 25, 26] [9, 9, 9, 9, 9, 9, 9]
        [9, 9, 9, 9, 9, 9, 9]).2.1 =
      [10, 11, 12, 13, 14, 15, 16].drop (7 - 5) ++ [20, 21, 22, 23, 24, 25, 26].take (7 - 5) ∧
    ((run_Adt
        ((run_Adt (some ⟨List.replicate 200 (0 : ℤ), (5, 0), (1000, 0)⟩) 7 [0, 0, 0, 0, 0, 0, 0]
          [10, 11, 12, 13, 14, 15, 16] [9, 9, 9, 9, 9, 9, 9] [9, 9, 9, 9, 9, 9, 9]).2.2)
        7 [0, 0, 0, 0, 0, 0, 0] [20, 21, 22, 23, 24, 25, 26] [9, 9, 9, 9, 9, 9, 9]
        [9, 9, 9, 9, 9, 9, 9]).2.2.map
        fun a => a.block_run_off.take 5) = some ([20, 21, 22, 23, 24, 25, 26].drop (7 - 5)) ∧
    (run_Adt (some ⟨List.replicate 200 (0 : ℤ), (5, 0), (1000, 0)⟩) 7 [0, 0, 0, 0, 0, 0, 0]
        [10, 11, 12, 13, 14, 15, 16] [9, 9, 9, 9, 9, 9, 9] [9, 9, 9, 9, 9, 9, 9]).2.1 ++
      (run_Adt
        ((run_Adt (some ⟨List.replicate 200 (0 : ℤ), (5, 0), (1000, 0)⟩) 7 [0, 0, 0, 0, 0, 0, 0]
          [10, 11, 12, 13, 14, 15, 16] [9, 9, 9, 9, 9, 9, 9] [9, 9, 9, 9, 9, 9, 9]).2.2)
        7 [0, 0, 0, 0, 0, 0, 0] [20, 21, 22, 23, 24, 25, 26] [9, 9, 9, 9, 9, 9, 9]
        [9, 9, 9, 9, 9, 9, 9]).2.1 =
      List.replicate 5 (0 : ℤ) ++ [10, 11, 12, 13, 14, 15, 16] ++
        [20, 21, 22, 23, 24, 25, 26].take (7 - 5) :=
  run_Adt_delay_two_calls ℤ (1000, 0) (5, 0) 7 200 5 [0, 0, 0, 0, 0, 0, 0]
    [10, 11, 12, 13, 14, 15, 16] [0, 0, 0, 0, 0, 0, 0] [20, 21, 22, 23, 24, 25, 26]
    [9, 9, 9, 9, 9, 9, 9] [9, 9, 9, 9, 9, 9, 9] [9, 9, 9, 9, 9, 9, 9] [9, 9, 9, 9, 9, 9, 9]
    (by decide) (by unfold valF; norm_num) (by norm_num) (by norm_num) (by norm_num)
    (by norm_num) (by norm_num) (by norm_num) (by norm_num)
